import Mathlib

/-!
Verification of the certificate-bundle patcher (`patch_cert_bundle.py`).

A blob is modelled as `List Nat` (byte values).  The scanner, selector and
patcher are shallowly embedded: `bytesFind` models Python's `bytes.find`,
`startsWithAt` models `bytes.startswith(prefix, pos)`, `scanLoop` and
`scanSingle` model `_scan_single`, `findAllLoop`/`findAllBundles` model
`find_all_bundles`, `selectGo`/`selectBundles` model `_select_bundles`, and
`patchGo`/`patch` model the replacement loop of `patch_bundle`.  Exceptions
raised by the Python code become `Except Err` values whose constructors carry
exactly the data interpolated into the corresponding error message.
-/

set_option maxRecDepth 16384

namespace PCB

/-- Bytes of an ASCII string literal, as natural numbers. -/
def strBytes (s : String) : List Nat := s.data.map Char.toNat

/-- The byte literal `-----BEGIN CERTIFICATE-----`. -/
def CERT_BEGIN : List Nat := strBytes "-----BEGIN CERTIFICATE-----"

/-- The byte literal `-----END CERTIFICATE-----`. -/
def CERT_END : List Nat := strBytes "-----END CERTIFICATE-----"

/-- The whitespace class recognized between chained certificates. -/
def WHITESPACE : List Nat := strBytes " \t\r\n"

/-- Membership of a single byte in `WHITESPACE`. -/
def isWS (b : Nat) : Bool := WHITESPACE.contains b

/-- Whether a needle matches the first bytes of a list. -/
def matchPre : List Nat → List Nat → Bool
  | [], _ => true
  | _ :: _, [] => false
  | a :: ns, b :: bs => a == b && matchPre ns bs

/-- Python's `data.startswith(needle, pos)`. -/
def startsWithAt (needle data : List Nat) (pos : Nat) : Bool :=
  matchPre needle (data.drop pos)

/-- The needle occurs in the data starting at byte offset `pos`. -/
abbrev occursAt (needle data : List Nat) (pos : Nat) : Prop :=
  startsWithAt needle data pos = true

/-- Search helper for `bytesFind`: scans the suffix `l` of the data, where `i`
is the absolute offset of the head of `l`. -/
def findAux (needle : List Nat) : List Nat → Nat → Option Nat
  | [], i => if needle.isEmpty then some i else none
  | l@(_ :: t), i => if matchPre needle l then some i else findAux needle t (i + 1)

/-- Python's `data.find(needle, pos)`: offset of the first occurrence of
`needle` at or after `pos`, or `none`. -/
def bytesFind (needle data : List Nat) (pos : Nat) : Option Nat :=
  if pos ≤ data.length then findAux needle (data.drop pos) pos else none

/-- Helper for `skipWS`: advances `i` past leading whitespace of `l`. -/
def skipAux : List Nat → Nat → Nat
  | [], i => i
  | b :: t, i => if isWS b then skipAux t (i + 1) else i

/-- The whitespace-eating loop of `_scan_single`:
`while end < len(data) and data[end:end+1] in WHITESPACE: end += 1`. -/
def skipWS (data : List Nat) (e : Nat) : Nat := skipAux (data.drop e) e

lemma CERT_BEGIN_ne : CERT_BEGIN ≠ [] := by decide

lemma CERT_END_ne : CERT_END ≠ [] := by decide

lemma CERT_END_len : CERT_END.length = 25 := by decide

lemma CERT_BEGIN_len : CERT_BEGIN.length = 27 := by decide

/-- A successful prefix match needs at least the needle's length of bytes. -/
lemma matchPre_length : ∀ {n l : List Nat}, matchPre n l = true → n.length ≤ l.length := by
  intro n
  induction n with
  | nil => intro l _; exact Nat.zero_le _
  | cons a ns ih =>
    intro l h
    cases l with
    | nil => simp [matchPre] at h
    | cons b bs =>
      simp only [matchPre, Bool.and_eq_true] at h
      simpa [List.length_cons] using Nat.succ_le_succ (ih h.2)

/-- A needle matches at the front of itself followed by anything. -/
lemma matchPre_append_self : ∀ (n r : List Nat), matchPre n (n ++ r) = true := by
  intro n
  induction n with
  | nil => intro r; rfl
  | cons a ns ih => intro r; simp [matchPre, ih r]

/-- An empty needle matches only when it is empty. -/
lemma matchPre_nil_right {n : List Nat} (h : matchPre n [] = true) : n = [] := by
  cases n with
  | nil => rfl
  | cons a ns => simp [matchPre] at h

/-- Dropping one more byte after a cons. -/
lemma drop_succ_of_drop_cons {d : List Nat} {i : Nat} {a : Nat} {t : List Nat}
    (h : d.drop i = a :: t) : d.drop (i + 1) = t := by
  have h1 : d.drop (i + 1) = List.drop 1 (d.drop i) := by
    rw [List.drop_drop, Nat.add_comm]
  rw [h1, h, List.drop_one]
  rfl

/-- An occurrence of a nonempty needle fits inside the data. -/
lemma occursAt_fit {n d : List Nat} {j : Nat} (hn : n ≠ [])
    (h : occursAt n d j) : j + n.length ≤ d.length ∧ j < d.length := by
  have hl := matchPre_length h
  rw [List.length_drop] at hl
  have hpos : 0 < n.length := List.length_pos.mpr hn
  omega

lemma findAux_ge {n : List Nat} : ∀ (l : List Nat) (i j : Nat),
    findAux n l i = some j → i ≤ j := by
  intro l
  induction l with
  | nil =>
    intro i j h
    simp only [findAux] at h
    split at h
    · exact le_of_eq (Option.some.inj h)
    · exact absurd h (by simp)
  | cons a t ih =>
    intro i j h
    simp only [findAux] at h
    split at h
    · exact le_of_eq (Option.some.inj h)
    · exact le_trans (Nat.le_succ i) (ih (i + 1) j h)

lemma findAux_occurs {n d : List Nat} : ∀ (l : List Nat) (i j : Nat),
    d.drop i = l → findAux n l i = some j → occursAt n d j := by
  intro l
  induction l with
  | nil =>
    intro i j hd h
    simp only [findAux] at h
    split at h
    · rename_i hne
      cases Option.some.inj h
      have : n = [] := by
        cases n with
        | nil => rfl
        | cons a ns => simp [List.isEmpty] at hne
      simp [occursAt, startsWithAt, hd, this, matchPre]
    · exact absurd h (by simp)
  | cons a t ih =>
    intro i j hd h
    simp only [findAux] at h
    split at h
    · rename_i hm
      cases Option.some.inj h
      simpa [occursAt, startsWithAt, hd] using hm
    · exact ih (i + 1) j (drop_succ_of_drop_cons hd) h

lemma findAux_first {n d : List Nat} : ∀ (l : List Nat) (i j : Nat),
    d.drop i = l → findAux n l i = some j →
    ∀ k, i ≤ k → k < j → ¬ occursAt n d k := by
  intro l
  induction l with
  | nil =>
    intro i j hd h k hik hkj
    simp only [findAux] at h
    split at h
    · cases Option.some.inj h; omega
    · exact absurd h (by simp)
  | cons a t ih =>
    intro i j hd h k hik hkj
    simp only [findAux] at h
    split at h
    · cases Option.some.inj h; omega
    · rename_i hm
      rcases Nat.eq_or_lt_of_le hik with heq | hlt
      · intro hocc
        rw [← heq] at hocc
        exact hm (by simpa [occursAt, startsWithAt, hd] using hocc)
      · exact ih (i + 1) j (drop_succ_of_drop_cons hd) h k hlt hkj

lemma findAux_none {n d : List Nat} (hn : n ≠ []) : ∀ (l : List Nat) (i : Nat),
    d.drop i = l → findAux n l i = none →
    ∀ k, i ≤ k → ¬ occursAt n d k := by
  intro l
  induction l with
  | nil =>
    intro i hd _ k hik hocc
    have hlen : d.length ≤ i := by
      have := congrArg List.length hd
      simp [List.length_drop] at this
      omega
    have hdk : d.drop k = [] := List.drop_eq_nil_of_le (le_trans hlen hik)
    have : matchPre n [] = true := by
      simpa [occursAt, startsWithAt, hdk] using hocc
    exact hn (matchPre_nil_right this)
  | cons a t ih =>
    intro i hd h k hik hocc
    simp only [findAux] at h
    split at h
    · exact absurd h (by simp)
    · rename_i hm
      rcases Nat.eq_or_lt_of_le hik with heq | hlt
      · rw [← heq] at hocc
        exact hm (by simpa [occursAt, startsWithAt, hd] using hocc)
      · exact ih (i + 1) (drop_succ_of_drop_cons hd) h k hlt hocc

lemma findAux_some_of_occurs {n d : List Nat} : ∀ (l : List Nat) (i j : Nat),
    d.drop i = l → i ≤ j → occursAt n d j →
    ∃ jp, findAux n l i = some jp ∧ jp ≤ j := by
  intro l
  induction l with
  | nil =>
    intro i j hd hij hocc
    have hlen : d.length ≤ i := by
      have := congrArg List.length hd
      simp [List.length_drop] at this
      omega
    have hdk : d.drop j = [] := List.drop_eq_nil_of_le (le_trans hlen hij)
    have hnil : n = [] := matchPre_nil_right (by simpa [occursAt, startsWithAt, hdk] using hocc)
    refine ⟨i, ?_, hij⟩
    simp [findAux, hnil, List.isEmpty]
  | cons a t ih =>
    intro i j hd hij hocc
    by_cases hm : matchPre n (a :: t) = true
    · exact ⟨i, by simp [findAux, hm], hij⟩
    · have hne : i ≠ j := by
        intro heq
        rw [← heq] at hocc
        exact hm (by simpa [occursAt, startsWithAt, hd] using hocc)
      obtain ⟨jp, h1, h2⟩ := ih (i + 1) j (drop_succ_of_drop_cons hd) (by omega) hocc
      exact ⟨jp, by simp [findAux, hm, h1], h2⟩

lemma bytesFind_ge {n d : List Nat} {pos j : Nat}
    (h : bytesFind n d pos = some j) : pos ≤ j := by
  unfold bytesFind at h
  split at h
  · exact findAux_ge _ pos j h
  · exact absurd h (by simp)

lemma bytesFind_occurs {n d : List Nat} {pos j : Nat}
    (h : bytesFind n d pos = some j) : occursAt n d j := by
  unfold bytesFind at h
  split at h
  · exact findAux_occurs _ pos j rfl h
  · exact absurd h (by simp)

lemma bytesFind_first {n d : List Nat} {pos j : Nat}
    (h : bytesFind n d pos = some j) :
    ∀ k, pos ≤ k → k < j → ¬ occursAt n d k := by
  unfold bytesFind at h
  split at h
  · exact findAux_first _ pos j rfl h
  · exact absurd h (by simp)

lemma bytesFind_none {n d : List Nat} {pos : Nat} (hn : n ≠ [])
    (h : bytesFind n d pos = none) :
    ∀ k, pos ≤ k → ¬ occursAt n d k := by
  unfold bytesFind at h
  split at h
  · exact findAux_none hn _ pos rfl h
  · rename_i hguard
    intro k hk hocc
    have := (occursAt_fit hn hocc).2
    omega

lemma bytesFind_fit {n d : List Nat} {pos j : Nat} (hn : n ≠ [])
    (h : bytesFind n d pos = some j) : j + n.length ≤ d.length :=
  (occursAt_fit hn (bytesFind_occurs h)).1

/-- If an occurrence at `j` exists and none exists earlier (at or after `pos`),
then `bytesFind` returns exactly `j`. -/
lemma bytesFind_eq_some {n d : List Nat} {pos j : Nat} (hn : n ≠ [])
    (hocc : occursAt n d j) (hpos : pos ≤ j)
    (hmin : ∀ k, pos ≤ k → k < j → ¬ occursAt n d k) :
    bytesFind n d pos = some j := by
  have hfit := occursAt_fit hn hocc
  have hguard : pos ≤ d.length := by omega
  obtain ⟨jp, h1, h2⟩ := findAux_some_of_occurs (n := n) (d := d) _ pos j rfl hpos hocc
  have hj : bytesFind n d pos = some jp := by
    unfold bytesFind
    simp [hguard, h1]
  rcases Nat.eq_or_lt_of_le h2 with heq | hlt
  · rwa [heq] at hj
  · exact absurd (bytesFind_occurs hj) (hmin jp (bytesFind_ge hj) hlt)

lemma bytesFind_eq_none {n d : List Nat} {pos : Nat} (hn : n ≠ [])
    (h : ∀ k, pos ≤ k → ¬ occursAt n d k) : bytesFind n d pos = none := by
  cases hf : bytesFind n d pos with
  | none => rfl
  | some j => exact absurd (bytesFind_occurs hf) (h j (bytesFind_ge hf))

/-- Nothing is found at or after the end of the data. -/
lemma bytesFind_at_length {n d : List Nat} {pos : Nat} (hn : n ≠ [])
    (h : d.length ≤ pos) : bytesFind n d pos = none := by
  refine bytesFind_eq_none hn ?_
  intro k hk hocc
  have := (occursAt_fit hn hocc).2
  omega

lemma skipAux_ge : ∀ (l : List Nat) (i : Nat), i ≤ skipAux l i := by
  intro l
  induction l with
  | nil => intro i; exact le_refl i
  | cons b t ih =>
    intro i
    simp only [skipAux]
    split
    · exact le_trans (Nat.le_succ i) (ih (i + 1))
    · exact le_refl i

lemma skipAux_le : ∀ (l : List Nat) (i : Nat), skipAux l i ≤ i + l.length := by
  intro l
  induction l with
  | nil => intro i; simp [skipAux]
  | cons b t ih =>
    intro i
    simp only [skipAux]
    split
    · have := ih (i + 1); simp [List.length_cons]; omega
    · simp

lemma skipWS_ge (d : List Nat) (e : Nat) : e ≤ skipWS d e := skipAux_ge _ e

lemma skipWS_le_length {d : List Nat} {e : Nat} (h : e ≤ d.length) :
    skipWS d e ≤ d.length := by
  have := skipAux_le (d.drop e) e
  rw [List.length_drop] at this
  unfold skipWS
  omega

/-- The whitespace skip consumes exactly a leading all-whitespace run. -/
lemma skipAux_ws_append {w : List Nat} {x : Nat} {r : List Nat}
    (hw : ∀ y ∈ w, isWS y = true) (hx : isWS x = false) :
    ∀ i, skipAux (w ++ x :: r) i = i + w.length := by
  induction w with
  | nil => intro i; simp [skipAux, hx]
  | cons b t ih =>
    intro i
    have hb : isWS b = true := hw b (by simp)
    have ht : ∀ y ∈ t, isWS y = true := fun y hy => hw y (by simp [hy])
    have step : skipAux ((b :: t) ++ x :: r) i = skipAux (t ++ x :: r) (i + 1) := by
      simp [skipAux, hb]
    rw [step, ih ht (i + 1)]
    simp [List.length_cons]
    omega

/-- Structured errors; each constructor carries exactly the data interpolated
into the corresponding Python error message. -/
inductive Err where
  | malformed : Err
  | noBundles : Err
  | indexOutOfRange (index : Int) (count : Nat) : Err
  | oversize (idx newLen origLen : Nat) : Err
  | undersize (idx : Nat) : Err
deriving DecidableEq, Repr

instance {ε α : Type} [DecidableEq ε] [DecidableEq α] : DecidableEq (Except ε α)
  | .ok a, .ok b =>
    if h : a = b then .isTrue (congrArg _ h) else .isFalse (fun c => h (Except.ok.inj c))
  | .error a, .error b =>
    if h : a = b then .isTrue (congrArg _ h) else .isFalse (fun c => h (Except.error.inj c))
  | .ok _, .error _ => .isFalse (fun c => Except.noConfusion c)
  | .error _, .ok _ => .isFalse (fun c => Except.noConfusion c)

/-- The numbers an error message names (the values interpolated into it). -/
def Err.mentions : Err → Nat → Bool
  | .malformed, _ => false
  | .noBundles, _ => false
  | .indexOutOfRange i c, m => ((m : Int) == i) || (m == c)
  | .oversize i a b, m => (m == i) || (m == a) || (m == b)
  | .undersize i, m => m == i

/-- The `while True` loop of `_scan_single`: starting the END-search at `e`,
extend the bundle that began at `start`, merging whitespace-adjacent blocks. -/
def scanLoop (data : List Nat) (start e : Nat) : Except Err (Nat × Nat) :=
  match h : bytesFind CERT_END data e with
  | none => .error .malformed
  | some ne =>
    let e2 := skipWS data (ne + CERT_END.length)
    if startsWithAt CERT_BEGIN data e2 then scanLoop data start e2
    else .ok (start, e2)
termination_by data.length - e
decreasing_by
  have h1 := bytesFind_ge h
  have h2 := bytesFind_fit CERT_END_ne h
  have h3 := skipWS_ge data (ne + CERT_END.length)
  have h4 := skipWS_le_length (d := data) (e := ne + CERT_END.length) (by omega)
  have h5 : 0 < CERT_END.length := by decide
  omega

/-- `_scan_single(data, pos)`: `(start, end)` of the bundle at or after `pos`,
`none` if no BEGIN marker remains, or the malformed-input error. -/
def scanSingle (data : List Nat) (pos : Nat) : Except Err (Option (Nat × Nat)) :=
  match bytesFind CERT_BEGIN data pos with
  | none => .ok none
  | some s => (scanLoop data s s).map some

lemma scanLoop_step_none {data : List Nat} {s e : Nat}
    (h : bytesFind CERT_END data e = none) :
    scanLoop data s e = .error .malformed := by
  rw [scanLoop.eq_def]
  split
  · rfl
  · rename_i ne heq
    rw [h] at heq
    exact absurd heq (by simp)

lemma scanLoop_step_cont {data : List Nat} {s e ne : Nat}
    (h : bytesFind CERT_END data e = some ne)
    (hb : startsWithAt CERT_BEGIN data (skipWS data (ne + CERT_END.length)) = true) :
    scanLoop data s e = scanLoop data s (skipWS data (ne + CERT_END.length)) := by
  rw [scanLoop.eq_def]
  split
  · rename_i heq
    rw [h] at heq
    exact absurd heq (by simp)
  · rename_i ne2 heq
    rw [h] at heq
    cases Option.some.inj heq
    simp only [hb, if_true]

lemma scanLoop_step_done {data : List Nat} {s e ne : Nat}
    (h : bytesFind CERT_END data e = some ne)
    (hb : startsWithAt CERT_BEGIN data (skipWS data (ne + CERT_END.length)) = false) :
    scanLoop data s e = .ok (s, skipWS data (ne + CERT_END.length)) := by
  rw [scanLoop.eq_def]
  split
  · rename_i heq
    rw [h] at heq
    exact absurd heq (by simp)
  · rename_i ne2 heq
    rw [h] at heq
    cases Option.some.inj heq
    simp [hb]

/-- A successful `scanLoop` keeps its `start`, strictly advances the cursor,
and stays inside the blob. -/
lemma scanLoop_ok {d : List Nat} : ∀ (m s e : Nat) (p : Nat × Nat),
    d.length - e ≤ m → scanLoop d s e = .ok p →
    s = p.1 ∧ e < p.2 ∧ p.2 ≤ d.length := by
  intro m
  induction m with
  | zero =>
    intro s e p hm hok
    cases hf : bytesFind CERT_END d e with
    | none => rw [scanLoop_step_none hf] at hok; exact absurd hok (by simp)
    | some ne =>
      have h1 := bytesFind_ge hf
      have h2 := bytesFind_fit CERT_END_ne hf
      have h5 : 0 < CERT_END.length := by decide
      omega
  | succ m ih =>
    intro s e p hm hok
    cases hf : bytesFind CERT_END d e with
    | none => rw [scanLoop_step_none hf] at hok; exact absurd hok (by simp)
    | some ne =>
      have h1 := bytesFind_ge hf
      have h2 := bytesFind_fit CERT_END_ne hf
      have h3 := skipWS_ge d (ne + CERT_END.length)
      have h4 := skipWS_le_length (d := d) (e := ne + CERT_END.length) (by omega)
      have h5 : 0 < CERT_END.length := by decide
      cases hb : startsWithAt CERT_BEGIN d (skipWS d (ne + CERT_END.length)) with
      | true =>
        rw [scanLoop_step_cont hf hb] at hok
        have := ih s (skipWS d (ne + CERT_END.length)) p (by omega) hok
        exact ⟨this.1, by omega, this.2.2⟩
      | false =>
        rw [scanLoop_step_done hf hb] at hok
        cases Except.ok.inj hok
        exact ⟨rfl, by omega, by omega⟩

/-- If `scanLoop` fails then some position carrying a BEGIN marker has no END
marker occurrence at or after it (provided the entry cursor carries one). -/
lemma scanLoop_error {d : List Nat} : ∀ (m s e : Nat) {err : Err},
    d.length - e ≤ m → occursAt CERT_BEGIN d e → scanLoop d s e = .error err →
    ∃ j, occursAt CERT_BEGIN d j ∧ ∀ k, j ≤ k → ¬ occursAt CERT_END d k := by
  intro m
  induction m with
  | zero =>
    intro s e err hm hbeg herr
    cases hf : bytesFind CERT_END d e with
    | none => exact ⟨e, hbeg, bytesFind_none CERT_END_ne hf⟩
    | some ne =>
      have h1 := bytesFind_ge hf
      have h2 := bytesFind_fit CERT_END_ne hf
      have h5 : 0 < CERT_END.length := by decide
      omega
  | succ m ih =>
    intro s e err hm hbeg herr
    cases hf : bytesFind CERT_END d e with
    | none => exact ⟨e, hbeg, bytesFind_none CERT_END_ne hf⟩
    | some ne =>
      have h1 := bytesFind_ge hf
      have h2 := bytesFind_fit CERT_END_ne hf
      have h3 := skipWS_ge d (ne + CERT_END.length)
      have h4 := skipWS_le_length (d := d) (e := ne + CERT_END.length) (by omega)
      have h5 : 0 < CERT_END.length := by decide
      cases hb : startsWithAt CERT_BEGIN d (skipWS d (ne + CERT_END.length)) with
      | true =>
        rw [scanLoop_step_cont hf hb] at herr
        exact ih s (skipWS d (ne + CERT_END.length)) (by omega) hb herr
      | false =>
        rw [scanLoop_step_done hf hb] at herr
        exact absurd herr (by simp)

lemma scanSingle_ok_bounds {d : List Nat} {pos s e : Nat}
    (h : scanSingle d pos = .ok (some (s, e))) :
    pos ≤ s ∧ s < e ∧ e ≤ d.length := by
  unfold scanSingle at h
  cases hf : bytesFind CERT_BEGIN d pos with
  | none => rw [hf] at h; exact absurd h (by simp)
  | some s0 =>
    rw [hf] at h
    have h2 : (scanLoop d s0 s0).map some = Except.ok (some (s, e)) := h
    cases hl : scanLoop d s0 s0 with
    | error err => rw [hl] at h2; exact absurd h2 (by simp [Except.map])
    | ok p =>
      rw [hl] at h2
      have hp : p = (s, e) := by
        cases p
        simpa [Except.map] using h2
      rw [hp] at hl
      obtain ⟨hb1, hb2, hb3⟩ := scanLoop_ok d.length s0 s0 (s, e) (by omega) hl
      have hs0 : s0 = s := hb1
      have hb2s : s < e := by rw [← hs0]; simpa using hb2
      have := bytesFind_ge hf
      exact ⟨by omega, hb2s, hb3⟩

/-- `find_all_bundles`: collect every bundle, advancing the cursor to the end
of each discovered bundle. -/
def findAllLoop (data : List Nat) (pos : Nat) : Except Err (List (Nat × Nat)) :=
  match h : scanSingle data pos with
  | .error err => .error err
  | .ok none => .ok []
  | .ok (some (s, e)) => (findAllLoop data e).map (fun rest => (s, e) :: rest)
termination_by data.length + 1 - pos
decreasing_by
  obtain ⟨h1, h2, h3⟩ := scanSingle_ok_bounds h
  omega

/-- `find_all_bundles(data)` from the start of the blob. -/
def findAllBundles (data : List Nat) : Except Err (List (Nat × Nat)) :=
  findAllLoop data 0

lemma findAllLoop_step_err {data : List Nat} {pos : Nat} {err : Err}
    (h : scanSingle data pos = .error err) :
    findAllLoop data pos = .error err := by
  rw [findAllLoop.eq_def]
  split
  · rename_i e2 heq
    rw [h] at heq
    cases Except.error.inj heq
    rfl
  · rename_i heq; rw [h] at heq; exact absurd heq (by simp)
  · rename_i s e heq; rw [h] at heq; exact absurd heq (by simp)

lemma findAllLoop_step_none {data : List Nat} {pos : Nat}
    (h : scanSingle data pos = .ok none) :
    findAllLoop data pos = .ok [] := by
  rw [findAllLoop.eq_def]
  split
  · rename_i e2 heq; rw [h] at heq; exact absurd heq (by simp)
  · rfl
  · rename_i s e heq; rw [h] at heq; exact absurd heq (by simp)

lemma findAllLoop_step_cons {data : List Nat} {pos s e : Nat}
    (h : scanSingle data pos = .ok (some (s, e))) :
    findAllLoop data pos = (findAllLoop data e).map (fun rest => (s, e) :: rest) := by
  rw [findAllLoop.eq_def]
  split
  · rename_i e2 heq; rw [h] at heq; exact absurd heq (by simp)
  · rename_i heq; rw [h] at heq; exact absurd heq (by simp)
  · rename_i s2 e2 heq
    rw [h] at heq
    cases Except.ok.inj heq
    rfl

/-- All bundles returned from cursor `pos` start at or after `pos`, are
nonempty ranges inside the blob, and are chained end-before-start. -/
lemma findAllLoop_inv {d : List Nat} : ∀ (m pos : Nat) {bs : List (Nat × Nat)},
    d.length + 1 - pos ≤ m → findAllLoop d pos = .ok bs →
    (∀ t ∈ bs, pos ≤ t.1 ∧ t.1 < t.2 ∧ t.2 ≤ d.length) ∧
    List.Chain' (fun a b : Nat × Nat => a.2 ≤ b.1) bs := by
  intro m
  induction m with
  | zero =>
    intro pos bs hm hok
    cases hs : scanSingle d pos with
    | error err => rw [findAllLoop_step_err hs] at hok; exact absurd hok (by simp)
    | ok r =>
      cases r with
      | none =>
        rw [findAllLoop_step_none hs] at hok
        cases Except.ok.inj hok
        exact ⟨by simp, by simp⟩
      | some p =>
        obtain ⟨s, e⟩ := p
        obtain ⟨h1, h2, h3⟩ := scanSingle_ok_bounds hs
        omega
  | succ m ih =>
    intro pos bs hm hok
    cases hs : scanSingle d pos with
    | error err => rw [findAllLoop_step_err hs] at hok; exact absurd hok (by simp)
    | ok r =>
      cases r with
      | none =>
        rw [findAllLoop_step_none hs] at hok
        cases Except.ok.inj hok
        exact ⟨by simp, by simp⟩
      | some p =>
        obtain ⟨s, e⟩ := p
        obtain ⟨h1, h2, h3⟩ := scanSingle_ok_bounds hs
        rw [findAllLoop_step_cons hs] at hok
        cases hr : findAllLoop d e with
        | error err => rw [hr] at hok; exact absurd hok (by simp [Except.map])
        | ok rest =>
          rw [hr] at hok
          have hbs : bs = (s, e) :: rest := by
            simpa [Except.map] using hok.symm
          obtain ⟨hinv, hchain⟩ := ih e (by omega) hr
          subst hbs
          constructor
          · intro t ht
            rcases List.mem_cons.mp ht with h | h
            · subst h; exact ⟨le_refl _ |>.trans h1, h2, h3⟩
            · have := hinv t h
              exact ⟨by omega, this.2.1, this.2.2⟩
          · refine List.chain'_cons'.mpr ⟨?_, hchain⟩
            intro b hb
            exact (hinv b (List.mem_of_mem_head? hb)).1

lemma scanSingle_error {d : List Nat} {pos : Nat} {err : Err}
    (h : scanSingle d pos = .error err) :
    ∃ s, bytesFind CERT_BEGIN d pos = some s ∧ scanLoop d s s = .error err := by
  unfold scanSingle at h
  cases hf : bytesFind CERT_BEGIN d pos with
  | none => rw [hf] at h; exact absurd h (by simp)
  | some s0 =>
    rw [hf] at h
    have h2 : (scanLoop d s0 s0).map some = Except.error err := h
    cases hl : scanLoop d s0 s0 with
    | error e2 =>
      rw [hl] at h2
      have : e2 = err := by simpa [Except.map] using h2
      exact ⟨s0, rfl, by rw [hl, this]⟩
    | ok p => rw [hl] at h2; exact absurd h2 (by simp [Except.map])

/-- If the whole scan fails, some position carrying a BEGIN marker has no END
marker occurrence at or after it. -/
lemma findAllLoop_error {d : List Nat} : ∀ (m pos : Nat) {err : Err},
    d.length + 1 - pos ≤ m → findAllLoop d pos = .error err →
    ∃ j, occursAt CERT_BEGIN d j ∧ ∀ k, j ≤ k → ¬ occursAt CERT_END d k := by
  intro m
  induction m with
  | zero =>
    intro pos err hm herr
    cases hs : scanSingle d pos with
    | error e2 =>
      obtain ⟨s, hf, hl⟩ := scanSingle_error hs
      exact scanLoop_error d.length s s (by omega) (bytesFind_occurs hf) hl
    | ok r =>
      cases r with
      | none => rw [findAllLoop_step_none hs] at herr; exact absurd herr (by simp)
      | some p =>
        obtain ⟨s, e⟩ := p
        obtain ⟨h1, h2, h3⟩ := scanSingle_ok_bounds hs
        omega
  | succ m ih =>
    intro pos err hm herr
    cases hs : scanSingle d pos with
    | error e2 =>
      obtain ⟨s, hf, hl⟩ := scanSingle_error hs
      exact scanLoop_error d.length s s (by omega) (bytesFind_occurs hf) hl
    | ok r =>
      cases r with
      | none => rw [findAllLoop_step_none hs] at herr; exact absurd herr (by simp)
      | some p =>
        obtain ⟨s, e⟩ := p
        obtain ⟨h1, h2, h3⟩ := scanSingle_ok_bounds hs
        rw [findAllLoop_step_cons hs] at herr
        cases hr : findAllLoop d e with
        | error e3 => exact ih e (by omega) hr
        | ok rest => rw [hr] at herr; exact absurd herr (by simp [Except.map])

/-- Normalization of a requested index: negative values count from the end. -/
def normI (count : Nat) (i : Int) : Int := if i < 0 then (count : Int) + i else i

/-- The normalized index lies in `[0, count)`. -/
def inRangeI (count : Nat) (i : Int) : Prop :=
  0 ≤ normI count i ∧ normI count i < (count : Int)

instance (count : Nat) (i : Int) : Decidable (inRangeI count i) :=
  inferInstanceAs (Decidable (_ ∧ _))

/-- Membership of a normalized index in the `seen` set. -/
def memb (k : Nat) : List Nat → Bool
  | [] => false
  | x :: xs => (k == x) || memb k xs

/-- The loop of `_select_bundles`: validates, normalizes and de-duplicates the
requested indices (the `seen` set is modelled as a list). -/
def selectGo (bundles : List (Nat × Nat)) : List Int → List Nat →
    Except Err (List (Nat × Nat))
  | [], _ => .ok []
  | i :: rest, seen =>
    let idx : Int := normI bundles.length i
    if idx < 0 ∨ (bundles.length : Int) ≤ idx then
      .error (.indexOutOfRange i bundles.length)
    else if memb idx.toNat seen then
      selectGo bundles rest seen
    else
      (selectGo bundles rest (idx.toNat :: seen)).map
        (fun ts => bundles.getD idx.toNat (0, 0) :: ts)

/-- `_select_bundles(bundles, indices)`. -/
def selectBundles (bundles : List (Nat × Nat)) (indices : List Int) :
    Except Err (List (Nat × Nat)) :=
  selectGo bundles indices []

/-- `blob[:start] + new + blob[end:]`. -/
def splice (blob : List Nat) (s e : Nat) (new : List Nat) : List Nat :=
  blob.take s ++ new ++ blob.drop e

/-- The replacement loop of `patch_bundle`: `idx` is the position in the patch
plan, `rep` the replacement bytes read from the certificate file. -/
def patchGo (blob : List Nat) (targets : List (Nat × Nat)) (rep : List Nat)
    (strict : Bool) (idx : Nat) : Except Err (List Nat) :=
  match targets with
  | [] => .ok blob
  | (s, e) :: rest =>
    let origLen := e - s
    if origLen < rep.length then
      .error (.oversize idx rep.length origLen)
    else if rep.length < origLen then
      if strict then
        .error (.undersize idx)
      else
        patchGo (splice blob s e (rep ++ List.replicate (origLen - rep.length) 0))
          rest rep strict (idx + 1)
    else
      patchGo (splice blob s e rep) rest rep strict (idx + 1)

/-- The patch operation over resolved targets (§6 `patch`). -/
def patch (blob : List Nat) (targets : List (Nat × Nat)) (rep : List Nat)
    (strict : Bool) : Except Err (List Nat) :=
  patchGo blob targets rep strict 0

/-- The whole `patch_bundle` pipeline on in-memory bytes: scan, reject empty
scans, select (`none` meaning all), then patch. -/
def patchBundle (blob rep : List Nat) (indices : Option (List Int))
    (strict : Bool) : Except Err (List Nat) := do
  let bundles ← findAllBundles blob
  if bundles.isEmpty then
    throw .noBundles
  else
    let targets ← match indices with
      | none => .ok bundles
      | some is => selectBundles bundles is
    patch blob targets rep strict

/-- First-occurrence de-duplication: keeps an element only where it first
appears, preserving that order. -/
def dedupFO : List Nat → List Nat
  | [] => []
  | x :: xs => x :: dedupFO (xs.filter (fun y => y != x))
termination_by l => l.length
decreasing_by
  have := List.length_filter_le (fun y => y != x) xs
  simp only [List.length_cons]
  omega

lemma splice_length {blob : List Nat} {s e : Nat} {new : List Nat}
    (hse : s ≤ e) (hel : e ≤ blob.length) (hn : new.length = e - s) :
    (splice blob s e new).length = blob.length := by
  simp [splice, List.length_append, List.length_take, List.length_drop]
  omega

/-- Bytes strictly before the patched range are unchanged. -/
lemma splice_getElem?_lt {blob : List Nat} {s e : Nat} {new : List Nat}
    {i : Nat} (hs : s ≤ blob.length) (hi : i < s) :
    (splice blob s e new)[i]? = blob[i]? := by
  unfold splice
  have hlen : i < (blob.take s).length := by
    rw [List.length_take]
    omega
  rw [List.append_assoc, List.getElem?_append_left hlen, List.getElem?_take]
  simp [hi]

/-- Bytes at or after the end of a length-preserving patched range are
unchanged. -/
lemma splice_getElem?_ge {blob : List Nat} {s e : Nat} {new : List Nat}
    {i : Nat} (hse : s ≤ e) (hel : e ≤ blob.length) (hn : new.length = e - s)
    (hi : e ≤ i) :
    (splice blob s e new)[i]? = blob[i]? := by
  unfold splice
  have hts : (blob.take s).length = s := by
    rw [List.length_take]
    omega
  have hfull : ((blob.take s ++ new).length) = e := by
    rw [List.length_append, hts, hn]
    omega
  rw [List.append_assoc, ← List.append_assoc,
    List.getElem?_append_right (by omega : (blob.take s ++ new).length ≤ i),
    hfull, List.getElem?_drop]
  congr 1
  omega

/-- The patched range holds exactly the new bytes. -/
lemma splice_slice {blob : List Nat} {s e : Nat} {new : List Nat}
    (hse : s ≤ e) (hel : e ≤ blob.length) (hn : new.length = e - s) :
    ((splice blob s e new).drop s).take (e - s) = new := by
  unfold splice
  have hts : (blob.take s).length = s := by
    rw [List.length_take]
    omega
  rw [List.append_assoc]
  have hdrop : ((blob.take s ++ (new ++ blob.drop e)).drop (blob.take s).length)
      = new ++ blob.drop e := List.drop_left _ _
  rw [hts] at hdrop
  rw [hdrop, ← hn, List.take_left]

/-- The patch loop on valid targets preserves the blob length and leaves every
byte outside all targeted ranges untouched. -/
lemma patchGo_ok_frame {rep : List Nat} {strict : Bool} :
    ∀ (targets : List (Nat × Nat)) (blob : List Nat) (idx : Nat) (out : List Nat),
    (∀ t ∈ targets, t.1 ≤ t.2 ∧ t.2 ≤ blob.length) →
    patchGo blob targets rep strict idx = .ok out →
    out.length = blob.length ∧
    ∀ i, (∀ t ∈ targets, i < t.1 ∨ t.2 ≤ i) → out[i]? = blob[i]? := by
  intro targets
  induction targets with
  | nil =>
    intro blob idx out hv hok
    cases Except.ok.inj hok
    exact ⟨rfl, fun i _ => rfl⟩
  | cons t rest ih =>
    intro blob idx out hv hok
    obtain ⟨s, e⟩ := t
    obtain ⟨hse, hel⟩ := hv (s, e) (by simp)
    simp only at hse hel
    have hvrest : ∀ t ∈ rest, t.1 ≤ t.2 ∧ t.2 ≤ blob.length :=
      fun t ht => hv t (by simp [ht])
    simp only [patchGo] at hok
    split at hok
    · exact absurd hok (by simp)
    · rename_i hover
      split at hok
      · rename_i hunder
        split at hok
        · exact absurd hok (by simp)
        · have hlen : (rep ++ List.replicate (e - s - rep.length) 0).length = e - s := by
            simp [List.length_append, List.length_replicate]
            omega
          have hsl := splice_length hse hel hlen
          obtain ⟨hl, hf⟩ := ih (splice blob s e (rep ++ List.replicate (e - s - rep.length) 0))
            (idx + 1) out (by rw [hsl]; exact hvrest) hok
          refine ⟨by rw [hl, hsl], ?_⟩
          intro i hout
          have h1 := hf i (fun t ht => hout t (by simp [ht]))
          have h2 : i < s ∨ e ≤ i := by
            have := hout (s, e) (by simp)
            simpa using this
          rcases h2 with h2 | h2
          · rw [h1, splice_getElem?_lt (by omega) h2]
          · rw [h1, splice_getElem?_ge hse hel hlen h2]
      · rename_i hunder
        have hlen : rep.length = e - s := by omega
        have hsl := splice_length hse hel hlen
        obtain ⟨hl, hf⟩ := ih (splice blob s e rep) (idx + 1) out
          (by rw [hsl]; exact hvrest) hok
        refine ⟨by rw [hl, hsl], ?_⟩
        intro i hout
        have h1 := hf i (fun t ht => hout t (by simp [ht]))
        have h2 : i < s ∨ e ≤ i := by
          have := hout (s, e) (by simp)
          simpa using this
        rcases h2 with h2 | h2
        · rw [h1, splice_getElem?_lt (by omega) h2]
        · rw [h1, splice_getElem?_ge hse hel hlen h2]

/-- If some target's range is smaller than the replacement, the loop never
succeeds (any mode). -/
lemma patchGo_oversize_never_ok {rep : List Nat} {strict : Bool} :
    ∀ (targets : List (Nat × Nat)) (blob : List Nat) (idx : Nat) (t : Nat × Nat),
    t ∈ targets → t.2 - t.1 < rep.length →
    ∀ out, patchGo blob targets rep strict idx ≠ .ok out := by
  intro targets
  induction targets with
  | nil => intro blob idx t ht; simp at ht
  | cons hd rest ih =>
    intro blob idx t ht hlt out hok
    obtain ⟨s, e⟩ := hd
    simp only [patchGo] at hok
    split at hok
    · exact absurd hok (by simp)
    · rename_i hover
      have htrest : t ∈ rest := by
        rcases List.mem_cons.mp ht with h | h
        · exfalso
          rw [h] at hlt
          simp only at hover hlt
          omega
        · exact h
      split at hok
      · split at hok
        · exact absurd hok (by simp)
        · exact ih _ (idx + 1) t htrest hlt out hok
      · exact ih _ (idx + 1) t htrest hlt out hok

/-- If all targets before position `k` in the plan are exact fits and the
target at `k` is oversize, the loop fails with exactly the oversize error
naming `k` and both lengths, in either mode. -/
lemma patchGo_oversize_eq {rep : List Nat} {strict : Bool} :
    ∀ (pre : List (Nat × Nat)) (blob : List Nat) (idx : Nat)
      (t : Nat × Nat) (rest : List (Nat × Nat)),
    (∀ p ∈ pre, p.2 - p.1 = rep.length) → t.2 - t.1 < rep.length →
    patchGo blob (pre ++ t :: rest) rep strict idx =
      .error (.oversize (idx + pre.length) rep.length (t.2 - t.1)) := by
  intro pre
  induction pre with
  | nil =>
    intro blob idx t rest hpre hover
    obtain ⟨s, e⟩ := t
    simp only at hover
    simp [patchGo, hover]
  | cons p ptl ih =>
    intro blob idx t rest hpre hover
    obtain ⟨s, e⟩ := p
    have hfit : e - s = rep.length := by
      have := hpre (s, e) (by simp)
      simpa using this
    have hptl : ∀ q ∈ ptl, q.2 - q.1 = rep.length := fun q hq => hpre q (by simp [hq])
    simp only [List.cons_append, patchGo, hfit]
    rw [if_neg (by omega), if_neg (by omega)]
    show patchGo (splice blob s e rep) (ptl ++ t :: rest) rep strict (idx + 1) = _
    rw [ih _ (idx + 1) t rest hptl hover]
    have harith : idx + 1 + ptl.length = idx + ((s, e) :: ptl).length := by
      rw [List.length_cons]
      omega
    rw [harith]

/-- Every selected target is one of the scanned bundles. -/
lemma selectGo_ok_mem {bs : List (Nat × Nat)} :
    ∀ (req : List Int) (seen : List Nat) (ts : List (Nat × Nat)),
    selectGo bs req seen = .ok ts → ∀ t ∈ ts, t ∈ bs := by
  intro req
  induction req with
  | nil =>
    intro seen ts hok
    cases Except.ok.inj hok
    simp
  | cons i rest ih =>
    intro seen ts hok t ht
    simp only [selectGo] at hok
    split at hok
    · exact absurd hok (by simp)
    · rename_i hguard
      split at hok
      · exact ih seen ts hok t ht
      · cases hsel : selectGo bs rest ((normI bs.length i).toNat :: seen) with
        | error err => rw [hsel] at hok; exact absurd hok (by simp [Except.map])
        | ok ts2 =>
          rw [hsel] at hok
          have hts : ts = bs.getD (normI bs.length i).toNat (0, 0) :: ts2 := by
            simpa [Except.map] using hok.symm
          subst hts
          rcases List.mem_cons.mp ht with h | h
          · subst h
            push_neg at hguard
            have hlt : (normI bs.length i).toNat < bs.length := by omega
            rw [List.getD_eq_getElem _ _ hlt]
            exact List.getElem_mem hlt
          · exact ih _ ts2 hsel t h

/-- The selector succeeds exactly when every requested index normalizes into
range. -/
lemma selectGo_ok_iff {bs : List (Nat × Nat)} :
    ∀ (req : List Int) (seen : List Nat),
    (∃ ts, selectGo bs req seen = .ok ts) ↔ ∀ i ∈ req, inRangeI bs.length i := by
  intro req
  induction req with
  | nil =>
    intro seen
    simp [selectGo]
  | cons i rest ih =>
    intro seen
    constructor
    · rintro ⟨ts, hok⟩ j hj
      simp only [selectGo] at hok
      split at hok
      · exact absurd hok (by simp)
      · rename_i hguard
        push_neg at hguard
        rcases List.mem_cons.mp hj with h | h
        · subst h
          exact ⟨hguard.1, hguard.2⟩
        · split at hok
          · exact (ih seen).mp ⟨ts, hok⟩ j h
          · cases hsel : selectGo bs rest ((normI bs.length i).toNat :: seen) with
            | error err => rw [hsel] at hok; exact absurd hok (by simp [Except.map])
            | ok ts2 => exact (ih _).mp ⟨ts2, hsel⟩ j h
    · intro hall
      have hhd := hall i (by simp)
      have hguard : ¬ (normI bs.length i < 0 ∨ (bs.length : Int) ≤ normI bs.length i) := by
        obtain ⟨h1, h2⟩ := hhd
        omega
      have hrest : ∀ j ∈ rest, inRangeI bs.length j := fun j hj => hall j (by simp [hj])
      simp only [selectGo, if_neg hguard]
      split
      · exact (ih seen).mpr hrest
      · obtain ⟨ts2, hsel⟩ := (ih ((normI bs.length i).toNat :: seen)).mpr hrest
        exact ⟨_, by rw [hsel]; rfl⟩

/-- The selector fails on the first out-of-range index, naming that index and
the bundle count. -/
lemma selectGo_first_err {bs : List (Nat × Nat)} :
    ∀ (pre : List Int) (i : Int) (rest : List Int) (seen : List Nat),
    (∀ j ∈ pre, inRangeI bs.length j) → ¬ inRangeI bs.length i →
    selectGo bs (pre ++ i :: rest) seen = .error (.indexOutOfRange i bs.length) := by
  intro pre
  induction pre with
  | nil =>
    intro i rest seen hpre hi
    have hguard : normI bs.length i < 0 ∨ (bs.length : Int) ≤ normI bs.length i := by
      by_contra hc
      push_neg at hc
      exact hi ⟨hc.1, hc.2⟩
    simp [selectGo, if_pos hguard]
  | cons j ptl ih =>
    intro i rest seen hpre hi
    have hj := hpre j (by simp)
    have hguard : ¬ (normI bs.length j < 0 ∨ (bs.length : Int) ≤ normI bs.length j) := by
      obtain ⟨h1, h2⟩ := hj
      omega
    simp only [List.cons_append, selectGo, if_neg hguard]
    have hptl : ∀ q ∈ ptl, inRangeI bs.length q := fun q hq => hpre q (by simp [hq])
    split
    · exact ih i rest seen hptl hi
    · simp only [List.append_eq]
      rw [ih i rest _ hptl hi]
      rfl

lemma dedupFO_cons (x : Nat) (xs : List Nat) :
    dedupFO (x :: xs) = x :: dedupFO (xs.filter (fun y => y != x)) := by
  rw [dedupFO]

lemma dedupFO_subset : ∀ (l : List Nat), ∀ y ∈ dedupFO l, y ∈ l := by
  intro l
  induction l using dedupFO.induct with
  | case1 => simp [dedupFO]
  | case2 x xs ih =>
    intro y hy
    rw [dedupFO_cons] at hy
    rcases List.mem_cons.mp hy with h | h
    · simp [h]
    · have := ih y h
      have := List.mem_of_mem_filter this
      simp [this]

/-- First-occurrence de-duplication produces a duplicate-free list. -/
lemma dedupFO_nodup : ∀ (l : List Nat), (dedupFO l).Nodup := by
  intro l
  induction l using dedupFO.induct with
  | case1 => simp [dedupFO]
  | case2 x xs ih =>
    rw [dedupFO_cons]
    refine List.nodup_cons.mpr ⟨?_, ih⟩
    intro hx
    have := dedupFO_subset _ x hx
    have := List.of_mem_filter this
    simp at this

/-- Filtering against an empty `seen` set keeps everything. -/
lemma filter_memb_nil (l : List Nat) : l.filter (fun k => !(memb k [])) = l := by
  induction l with
  | nil => rfl
  | cons a t ih => simp [List.filter_cons, memb, ih]

/-- The selector loop computes the first-occurrence de-duplication of the
normalized requested indices (relative to the `seen` set), mapped through the
bundle list. -/
lemma selectGo_eq_dedup {bs : List (Nat × Nat)} :
    ∀ (req : List Int) (seen : List Nat),
    (∀ i ∈ req, inRangeI bs.length i) →
    selectGo bs req seen =
      .ok ((dedupFO (((req.map (fun i => (normI bs.length i).toNat)).filter
          (fun k => !(memb k seen))))).map (fun k => bs.getD k (0, 0))) := by
  intro req
  induction req with
  | nil =>
    intro seen hall
    simp [selectGo, dedupFO]
  | cons i rest ih =>
    intro seen hall
    have hhd := hall i (by simp)
    have hrest : ∀ j ∈ rest, inRangeI bs.length j := fun j hj => hall j (by simp [hj])
    have hguard : ¬ (normI bs.length i < 0 ∨ (bs.length : Int) ≤ normI bs.length i) := by
      obtain ⟨h1, h2⟩ := hhd
      omega
    simp only [selectGo, if_neg hguard, List.map_cons, List.filter_cons]
    cases hmem : memb (normI bs.length i).toNat seen with
    | true =>
      exact ih seen hrest
    | false =>
      rw [ih ((normI bs.length i).toNat :: seen) hrest]
      simp only [Bool.not_false, Bool.false_eq_true, if_false, if_true, Except.map,
        dedupFO_cons, List.map_cons]
      congr 2
      rw [List.filter_filter]
      congr 2
      apply List.filter_congr
      intro a _
      show (!(memb a ((normI bs.length i).toNat :: seen)))
          = ((a != (normI bs.length i).toNat) && !(memb a seen))
      simp only [memb, Bool.not_or, bne]

/-- In strict mode, a plan containing an undersize target never succeeds. -/
lemma patchGo_undersize_never_ok {rep : List Nat} :
    ∀ (targets : List (Nat × Nat)) (blob : List Nat) (idx : Nat) (t : Nat × Nat),
    t ∈ targets → rep.length < t.2 - t.1 →
    ∀ out, patchGo blob targets rep true idx ≠ .ok out := by
  intro targets
  induction targets with
  | nil => intro blob idx t ht; simp at ht
  | cons hd rest ih =>
    intro blob idx t ht hlt out hok
    obtain ⟨s, e⟩ := hd
    simp only [patchGo] at hok
    split at hok
    · exact absurd hok (by simp)
    · rename_i hover
      split at hok
      · exact absurd hok (by simp)
      · rename_i hunder
        have htrest : t ∈ rest := by
          rcases List.mem_cons.mp ht with h | h
          · exfalso
            rw [h] at hlt
            simp only at hover hunder hlt
            omega
          · exact h
        exact ih _ (idx + 1) t htrest hlt out hok

/-- If all targets before position `k` are exact fits and the target at `k` is
undersize, strict mode fails with the undersize error naming `k` (and only
`k`: the code's message carries no lengths). -/
lemma patchGo_undersize_eq {rep : List Nat} :
    ∀ (pre : List (Nat × Nat)) (blob : List Nat) (idx : Nat)
      (t : Nat × Nat) (rest : List (Nat × Nat)),
    (∀ p ∈ pre, p.2 - p.1 = rep.length) → rep.length < t.2 - t.1 →
    patchGo blob (pre ++ t :: rest) rep true idx =
      .error (.undersize (idx + pre.length)) := by
  intro pre
  induction pre with
  | nil =>
    intro blob idx t rest hpre hunder
    obtain ⟨s, e⟩ := t
    simp only at hunder
    simp only [List.nil_append, patchGo, List.length_nil, Nat.add_zero]
    rw [if_neg (by omega), if_pos (by omega)]
    simp
  | cons p ptl ih =>
    intro blob idx t rest hpre hunder
    obtain ⟨s, e⟩ := p
    have hfit : e - s = rep.length := by
      have := hpre (s, e) (by simp)
      simpa using this
    have hptl : ∀ q ∈ ptl, q.2 - q.1 = rep.length := fun q hq => hpre q (by simp [hq])
    simp only [List.cons_append, patchGo, hfit]
    rw [if_neg (by omega), if_neg (by omega)]
    show patchGo (splice blob s e rep) (ptl ++ t :: rest) rep true (idx + 1) = _
    rw [ih _ (idx + 1) t rest hptl hunder]
    have harith : idx + 1 + ptl.length = idx + ((s, e) :: ptl).length := by
      rw [List.length_cons]
      omega
    rw [harith]

/-- A needle occurs right after a prefix `A` when the data continues with it. -/
lemma occursAt_middle (A n B : List Nat) : occursAt n (A ++ (n ++ B)) A.length := by
  unfold occursAt startsWithAt
  rw [List.drop_left]
  exact matchPre_append_self n B

lemma skipWS_at_length (d : List Nat) : skipWS d d.length = d.length := by
  unfold skipWS
  rw [List.drop_length]
  rfl

lemma startsWithAt_CB_at_length (d : List Nat) :
    startsWithAt CERT_BEGIN d d.length = false := by
  unfold startsWithAt
  rw [List.drop_length]
  decide

lemma scanSingle_none_of_ge {d : List Nat} {pos : Nat} (h : d.length ≤ pos) :
    scanSingle d pos = .ok none := by
  unfold scanSingle
  rw [bytesFind_at_length CERT_BEGIN_ne h]

lemma findAllLoop_nil_of_ge {d : List Nat} {pos : Nat} (h : d.length ≤ pos) :
    findAllLoop d pos = .ok [] :=
  findAllLoop_step_none (scanSingle_none_of_ge h)

/-- A blob made of two PEM certificate blocks separated by a gap. -/
def twoBlob (b1 g b2 : List Nat) : List Nat :=
  (CERT_BEGIN ++ b1 ++ CERT_END) ++ g ++ (CERT_BEGIN ++ b2 ++ CERT_END)

lemma twoBlob_length (b1 g b2 : List Nat) :
    (twoBlob b1 g b2).length =
      CERT_BEGIN.length + b1.length + CERT_END.length + g.length +
        CERT_BEGIN.length + b2.length + CERT_END.length := by
  simp [twoBlob, List.length_append]
  omega

lemma twoBlob_occB0 (b1 g b2 : List Nat) : occursAt CERT_BEGIN (twoBlob b1 g b2) 0 := by
  have h : twoBlob b1 g b2 =
      [] ++ (CERT_BEGIN ++ (b1 ++ CERT_END ++ g ++ (CERT_BEGIN ++ b2 ++ CERT_END))) := by
    simp [twoBlob, List.append_assoc]
  rw [h]
  exact occursAt_middle [] CERT_BEGIN _

lemma twoBlob_occE1 (b1 g b2 : List Nat) :
    occursAt CERT_END (twoBlob b1 g b2) (CERT_BEGIN.length + b1.length) := by
  have h : twoBlob b1 g b2 =
      (CERT_BEGIN ++ b1) ++ (CERT_END ++ (g ++ (CERT_BEGIN ++ b2 ++ CERT_END))) := by
    simp [twoBlob, List.append_assoc]
  have := occursAt_middle (CERT_BEGIN ++ b1) CERT_END
    (g ++ (CERT_BEGIN ++ b2 ++ CERT_END))
  rw [h]
  simpa [List.length_append] using this

lemma twoBlob_occB2 (b1 g b2 : List Nat) :
    occursAt CERT_BEGIN (twoBlob b1 g b2)
      (CERT_BEGIN.length + b1.length + CERT_END.length + g.length) := by
  have h : twoBlob b1 g b2 =
      (CERT_BEGIN ++ b1 ++ CERT_END ++ g) ++ (CERT_BEGIN ++ (b2 ++ CERT_END)) := by
    simp [twoBlob, List.append_assoc]
  have h2 := occursAt_middle (CERT_BEGIN ++ b1 ++ CERT_END ++ g) CERT_BEGIN (b2 ++ CERT_END)
  rw [h]
  simp only [List.length_append] at h2
  exact h2

lemma twoBlob_occE2 (b1 g b2 : List Nat) :
    occursAt CERT_END (twoBlob b1 g b2)
      (CERT_BEGIN.length + b1.length + CERT_END.length + g.length +
        CERT_BEGIN.length + b2.length) := by
  have h : twoBlob b1 g b2 =
      (CERT_BEGIN ++ b1 ++ CERT_END ++ g ++ CERT_BEGIN ++ b2) ++ (CERT_END ++ []) := by
    simp [twoBlob, List.append_assoc]
  have h2 := occursAt_middle (CERT_BEGIN ++ b1 ++ CERT_END ++ g ++ CERT_BEGIN ++ b2)
    CERT_END []
  rw [h]
  simp only [List.length_append] at h2
  exact h2

lemma twoBlob_drop_c1 (b1 g b2 : List Nat) :
    (twoBlob b1 g b2).drop (CERT_BEGIN.length + b1.length + CERT_END.length) =
      g ++ (CERT_BEGIN ++ b2 ++ CERT_END) := by
  have h : twoBlob b1 g b2 =
      (CERT_BEGIN ++ b1 ++ CERT_END) ++ (g ++ (CERT_BEGIN ++ b2 ++ CERT_END)) := by
    simp [twoBlob, List.append_assoc]
  rw [h, show CERT_BEGIN.length + b1.length + CERT_END.length
      = (CERT_BEGIN ++ b1 ++ CERT_END).length by simp [List.length_append]; omega,
    List.drop_left]

/-- The whitespace skip over a leading all-whitespace run stopping at the
first non-whitespace byte. -/
lemma skipWS_run {d w rest : List Nat} {e x : Nat}
    (hdrop : d.drop e = w ++ rest) (hw : ∀ y ∈ w, isWS y = true)
    (hhead : rest.head? = some x) (hx : isWS x = false) :
    skipWS d e = e + w.length := by
  unfold skipWS
  cases rest with
  | nil => simp at hhead
  | cons a rtl =>
    have hax : a = x := by simpa using hhead
    rw [hdrop, hax]
    exact skipAux_ws_append hw hx e

/-- C2: for every blob made of two well-formed PEM certificate blocks
(`twoBlob b1 g b2`, where the bodies contain no stray END marker, expressed by
the two first-occurrence hypotheses), if the gap `g` consists only of the four
ASCII whitespace bytes then `scan` returns one Bundle spanning both blocks;
if the gap has the form `w ++ x :: r` with `w` whitespace, `x` non-whitespace
(and no BEGIN marker occurrence starts inside the gap) then `scan` returns two
separate Bundles. -/
theorem claimC2 (b1 g b2 : List Nat)
    (hE1 : ∀ j, j < CERT_BEGIN.length + b1.length →
      ¬ occursAt CERT_END (twoBlob b1 g b2) j)
    (hE2 : ∀ j, j < CERT_BEGIN.length + b1.length + CERT_END.length + g.length +
        CERT_BEGIN.length + b2.length →
      CERT_BEGIN.length + b1.length + CERT_END.length + g.length ≤ j →
      ¬ occursAt CERT_END (twoBlob b1 g b2) j) :
    ((∀ y ∈ g, isWS y = true) →
      findAllBundles (twoBlob b1 g b2) = .ok [(0, (twoBlob b1 g b2).length)]) ∧
    (∀ w x r, g = w ++ x :: r → (∀ y ∈ w, isWS y = true) → isWS x = false →
      (∀ j, j < CERT_BEGIN.length + b1.length + CERT_END.length + g.length →
        CERT_BEGIN.length + b1.length + CERT_END.length ≤ j →
        ¬ occursAt CERT_BEGIN (twoBlob b1 g b2) j) →
      findAllBundles (twoBlob b1 g b2) =
        .ok [(0, CERT_BEGIN.length + b1.length + CERT_END.length + w.length),
             (CERT_BEGIN.length + b1.length + CERT_END.length + g.length,
              (twoBlob b1 g b2).length)]) := by
  have hlen := twoBlob_length b1 g b2
  have hoccB0 := twoBlob_occB0 b1 g b2
  have hoccE1 := twoBlob_occE1 b1 g b2
  have hoccB2 := twoBlob_occB2 b1 g b2
  have hoccE2 := twoBlob_occE2 b1 g b2
  have hdrop := twoBlob_drop_c1 b1 g b2
  set d := twoBlob b1 g b2 with hdDef
  have hfB : bytesFind CERT_BEGIN d 0 = some 0 :=
    bytesFind_eq_some CERT_BEGIN_ne hoccB0 (Nat.zero_le 0)
      (fun k _ hk => absurd hk (Nat.not_lt_zero k))
  have hfE1 : bytesFind CERT_END d 0 = some (CERT_BEGIN.length + b1.length) :=
    bytesFind_eq_some CERT_END_ne hoccE1 (Nat.zero_le _) (fun k _ hk => hE1 k hk)
  have hfE2 : bytesFind CERT_END d
      (CERT_BEGIN.length + b1.length + CERT_END.length + g.length) =
      some (CERT_BEGIN.length + b1.length + CERT_END.length + g.length +
        CERT_BEGIN.length + b2.length) :=
    bytesFind_eq_some CERT_END_ne hoccE2 (by omega) (fun k hk1 hk2 => hE2 k hk2 hk1)
  have hskipEnd : skipWS d
      (CERT_BEGIN.length + b1.length + CERT_END.length + g.length +
        CERT_BEGIN.length + b2.length + CERT_END.length) = d.length := by
    rw [show CERT_BEGIN.length + b1.length + CERT_END.length + g.length +
        CERT_BEGIN.length + b2.length + CERT_END.length = d.length from by omega]
    exact skipWS_at_length d
  have hbEnd : startsWithAt CERT_BEGIN d (skipWS d
      (CERT_BEGIN.length + b1.length + CERT_END.length + g.length +
        CERT_BEGIN.length + b2.length + CERT_END.length)) = false := by
    rw [hskipEnd]
    exact startsWithAt_CB_at_length d
  have hLoop2 : ∀ s, scanLoop d s
      (CERT_BEGIN.length + b1.length + CERT_END.length + g.length) =
      .ok (s, d.length) := by
    intro s
    rw [scanLoop_step_done hfE2 hbEnd, hskipEnd]
  have hTail : findAllLoop d d.length = .ok [] := findAllLoop_nil_of_ge (le_refl _)
  constructor
  · intro hws
    have hhead : (CERT_BEGIN ++ b2 ++ CERT_END).head? = some 45 := rfl
    have hskip1 : skipWS d (CERT_BEGIN.length + b1.length + CERT_END.length) =
        CERT_BEGIN.length + b1.length + CERT_END.length + g.length :=
      skipWS_run hdrop hws hhead (by decide)
    have hb2t : startsWithAt CERT_BEGIN d (skipWS d
        (CERT_BEGIN.length + b1.length + CERT_END.length)) = true := by
      rw [hskip1]
      exact hoccB2
    have hL : scanLoop d 0 0 = .ok (0, d.length) := by
      rw [scanLoop_step_cont hfE1 hb2t, hskip1, hLoop2]
    have hss : scanSingle d 0 = .ok (some (0, d.length)) := by
      unfold scanSingle
      rw [hfB]
      show (scanLoop d 0 0).map some = _
      rw [hL]
      rfl
    unfold findAllBundles
    rw [findAllLoop_step_cons hss, hTail]
    rfl
  · intro w x r hg hw hx hNoB
    have hglen : g.length = w.length + r.length + 1 := by
      rw [hg]
      simp only [List.length_append, List.length_cons]
      omega
    have hdropw : d.drop (CERT_BEGIN.length + b1.length + CERT_END.length) =
        w ++ (x :: (r ++ (CERT_BEGIN ++ b2 ++ CERT_END))) := by
      rw [hdrop, hg]
      simp [List.append_assoc]
    have hskip1w : skipWS d (CERT_BEGIN.length + b1.length + CERT_END.length) =
        CERT_BEGIN.length + b1.length + CERT_END.length + w.length :=
      skipWS_run hdropw hw rfl hx
    have hbw : startsWithAt CERT_BEGIN d (skipWS d
        (CERT_BEGIN.length + b1.length + CERT_END.length)) = false := by
      rw [hskip1w]
      cases hsw : startsWithAt CERT_BEGIN d
          (CERT_BEGIN.length + b1.length + CERT_END.length + w.length) with
      | false => rfl
      | true => exact absurd hsw (hNoB _ (by omega) (by omega))
    have hL1 : scanLoop d 0 0 =
        .ok (0, CERT_BEGIN.length + b1.length + CERT_END.length + w.length) := by
      rw [scanLoop_step_done hfE1 hbw, hskip1w]
    have hss1 : scanSingle d 0 =
        .ok (some (0, CERT_BEGIN.length + b1.length + CERT_END.length + w.length)) := by
      unfold scanSingle
      rw [hfB]
      show (scanLoop d 0 0).map some = _
      rw [hL1]
      rfl
    have hfB2 : bytesFind CERT_BEGIN d
        (CERT_BEGIN.length + b1.length + CERT_END.length + w.length) =
        some (CERT_BEGIN.length + b1.length + CERT_END.length + g.length) :=
      bytesFind_eq_some CERT_BEGIN_ne hoccB2 (by omega)
        (fun k hk1 hk2 => hNoB k hk2 (by omega))
    have hss2 : scanSingle d
        (CERT_BEGIN.length + b1.length + CERT_END.length + w.length) =
        .ok (some (CERT_BEGIN.length + b1.length + CERT_END.length + g.length,
          d.length)) := by
      unfold scanSingle
      rw [hfB2]
      show (scanLoop d (CERT_BEGIN.length + b1.length + CERT_END.length + g.length)
        (CERT_BEGIN.length + b1.length + CERT_END.length + g.length)).map some = _
      rw [hLoop2]
      rfl
    unfold findAllBundles
    rw [findAllLoop_step_cons hss1, findAllLoop_step_cons hss2, hTail]
    rfl

/-- A single well-formed certificate block used for concrete witnesses. -/
def certA : List Nat := CERT_BEGIN ++ strBytes "\nAAA\n" ++ CERT_END

/-- A firmware-like blob holding two bundles separated by non-whitespace. -/
def blobW : List Nat := certA ++ strBytes "#gap##" ++ certA

/-- An undersized replacement used for concrete witnesses. -/
def repW : List Nat := List.replicate 40 9

lemma scanSingle_blobW : scanSingle blobW 0 = .ok (some (0, 57)) := by
  have hfB : bytesFind CERT_BEGIN blobW 0 = some 0 := by decide
  have hfE : bytesFind CERT_END blobW 0 = some 32 := by decide
  have hskip : skipWS blobW (32 + CERT_END.length) = 57 := by decide
  have hsw : startsWithAt CERT_BEGIN blobW (skipWS blobW (32 + CERT_END.length)) = false := by
    decide
  have hL : scanLoop blobW 0 0 = .ok (0, 57) := by
    rw [scanLoop_step_done hfE hsw, hskip]
  unfold scanSingle
  rw [hfB]
  show (scanLoop blobW 0 0).map some = _
  rw [hL]
  rfl

lemma scan_blobW : findAllBundles blobW = .ok [(0, 57), (63, 120)] := by
  have hfB2 : bytesFind CERT_BEGIN blobW 57 = some 63 := by decide
  have hfE2 : bytesFind CERT_END blobW 63 = some 95 := by decide
  have hskip2 : skipWS blobW (95 + CERT_END.length) = 120 := by decide
  have hsw2 : startsWithAt CERT_BEGIN blobW (skipWS blobW (95 + CERT_END.length)) = false := by
    decide
  have hL2 : scanLoop blobW 63 63 = .ok (63, 120) := by
    rw [scanLoop_step_done hfE2 hsw2, hskip2]
  have hss2 : scanSingle blobW 57 = .ok (some (63, 120)) := by
    unfold scanSingle
    rw [hfB2]
    show (scanLoop blobW 63 63).map some = _
    rw [hL2]
    rfl
  have hss3 : scanSingle blobW 120 = .ok none :=
    scanSingle_none_of_ge (by decide)
  unfold findAllBundles
  rw [findAllLoop_step_cons scanSingle_blobW, findAllLoop_step_cons hss2,
    findAllLoop_step_none hss3]
  rfl

/-- C1: for every input blob, every target list produced by the scanner and
selector, and every replacement for which `patch` succeeds, the output blob
has exactly the input's length and every byte at an offset outside all
targeted ranges is identical to the input (the statement holds for the target
list in whatever order the selector produced it, since offsets are the
original ones). -/
theorem claimC1 (blob : List Nat) (bundles targets : List (Nat × Nat))
    (rep out : List Nat) (strict : Bool)
    (hscan : findAllBundles blob = .ok bundles)
    (hsel : targets = bundles ∨ ∃ req, selectBundles bundles req = .ok targets)
    (hp : patch blob targets rep strict = .ok out) :
    out.length = blob.length ∧
    ∀ i, (∀ t ∈ targets, i < t.1 ∨ t.2 ≤ i) → out[i]? = blob[i]? := by
  have hbinv := (findAllLoop_inv (d := blob) (blob.length + 1) 0 (by omega) hscan).1
  have hmem : ∀ t ∈ targets, t ∈ bundles := by
    rcases hsel with h | ⟨req, h⟩
    · intro t ht
      rw [← h]
      exact ht
    · exact selectGo_ok_mem req [] targets h
  have hv : ∀ t ∈ targets, t.1 ≤ t.2 ∧ t.2 ≤ blob.length := by
    intro t ht
    have := hbinv t (hmem t ht)
    exact ⟨le_of_lt this.2.1, this.2.2⟩
  exact patchGo_ok_frame targets blob 0 out hv hp

/-- The patched output blob for the C1 witness. -/
def outW : List Nat := (patch blobW [(0, 57), (63, 120)] repW false).toOption.getD []

theorem claimC1_witness :
    findAllBundles blobW = .ok [(0, 57), (63, 120)] ∧
    patch blobW [(0, 57), (63, 120)] repW false = .ok outW ∧
    outW.length = blobW.length ∧ outW[60]? = blobW[60]? :=
  ⟨scan_blobW, rfl,
    (claimC1 blobW [(0, 57), (63, 120)] [(0, 57), (63, 120)] repW outW false
      scan_blobW (Or.inl rfl) rfl).1,
    (claimC1 blobW [(0, 57), (63, 120)] [(0, 57), (63, 120)] repW outW false
      scan_blobW (Or.inl rfl) rfl).2 60 (by decide)⟩

theorem claimC2_witness :
    (∀ y ∈ strBytes "\n\n", isWS y = true) ∧
    findAllBundles (twoBlob (strBytes "\nAAAA\n") (strBytes "\n\n") (strBytes "\nBBBB\n"))
      = .ok [(0, (twoBlob (strBytes "\nAAAA\n") (strBytes "\n\n")
          (strBytes "\nBBBB\n")).length)] :=
  ⟨by decide,
    (claimC2 (strBytes "\nAAAA\n") (strBytes "\n\n") (strBytes "\nBBBB\n")
      (by decide) (by decide)).1 (by decide)⟩

/-- C3: for every patch target with range `[s, e)`: an exact-fit replacement
is spliced unchanged in either mode with no padding, and an undersize
replacement in non-strict mode is spliced followed by exactly
`(e - s) - rep.length` zero bytes, keeping the range's original length. -/
theorem claimC3 (blob : List Nat) (s e : Nat) (rep : List Nat)
    (hse : s ≤ e) (hel : e ≤ blob.length) :
    (rep.length = e - s → ∀ strict,
      patch blob [(s, e)] rep strict = .ok (splice blob s e rep) ∧
      ((splice blob s e rep).drop s).take (e - s) = rep) ∧
    (rep.length < e - s →
      patch blob [(s, e)] rep false =
        .ok (splice blob s e (rep ++ List.replicate (e - s - rep.length) 0)) ∧
      ((splice blob s e (rep ++ List.replicate (e - s - rep.length) 0)).drop s).take
        (e - s) = rep ++ List.replicate (e - s - rep.length) 0) := by
  constructor
  · intro hfit strict
    constructor
    · unfold patch
      simp only [patchGo]
      rw [if_neg (by omega), if_neg (by omega)]
    · exact splice_slice hse hel hfit
  · intro hunder
    have hlen : (rep ++ List.replicate (e - s - rep.length) 0).length = e - s := by
      simp [List.length_append, List.length_replicate]
      omega
    constructor
    · unfold patch
      simp only [patchGo]
      rw [if_neg (by omega), if_pos hunder]
      rfl
    · exact splice_slice hse hel hlen

theorem claimC3_witness :
    (2 ≤ 7 ∧ 7 ≤ (List.replicate 10 7 : List Nat).length) ∧
    patch (List.replicate 10 7) [(2, 7)] [1, 2, 3] false =
      .ok (splice (List.replicate 10 7) 2 7 ([1, 2, 3] ++ List.replicate 2 0)) ∧
    ((splice (List.replicate 10 7) 2 7 ([1, 2, 3] ++ List.replicate 2 0)).drop 2).take 5
      = [1, 2, 3] ++ List.replicate 2 0 :=
  ⟨⟨by decide, by decide⟩,
    ((claimC3 (List.replicate 10 7) 2 7 [1, 2, 3] (by decide) (by decide)).2
      (by decide)).1,
    ((claimC3 (List.replicate 10 7) 2 7 [1, 2, 3] (by decide) (by decide)).2
      (by decide)).2⟩

/-- C4 counterexample: the plan `[(0, 3), (0, 1)]` with replacement `[5, 5]`
contains the oversize target `(0, 1)`, yet in strict mode `patch` fails with
the undersize error for target `#0`, not an oversize error naming target `#1`
and both lengths — so the claim's "in strict and in non-strict mode alike"
fails as stated. -/
theorem claimC4_cex :
    ((0, 1) ∈ [((0 : Nat), (3 : Nat)), (0, 1)] ∧
      (1 : Nat) - 0 < ([5, 5] : List Nat).length) ∧
    patch [7, 7, 7] [(0, 3), (0, 1)] [5, 5] true = .error (.undersize 0) ∧
    patch [7, 7, 7] [(0, 3), (0, 1)] [5, 5] true ≠ .error (.oversize 1 2 1) := by
  decide

/-- C4 (amended): a plan containing an oversize target never produces an
output blob, in strict and non-strict mode alike; and whenever every target
before it in the plan is an exact fit, the failure is the oversize error
naming the target's position in the plan and both lengths. -/
theorem claimC4 (blob rep : List Nat) (strict : Bool) (pre rest : List (Nat × Nat))
    (t : Nat × Nat) (hover : t.2 - t.1 < rep.length) :
    (∀ out, patch blob (pre ++ t :: rest) rep strict ≠ .ok out) ∧
    ((∀ p ∈ pre, p.2 - p.1 = rep.length) →
      patch blob (pre ++ t :: rest) rep strict =
        .error (.oversize pre.length rep.length (t.2 - t.1))) := by
  constructor
  · intro out
    exact patchGo_oversize_never_ok (pre ++ t :: rest) blob 0 t (by simp) hover out
  · intro hpre
    have h := @patchGo_oversize_eq rep strict pre blob 0 t rest hpre hover
    simpa using h

theorem claimC4_witness :
    (((0, 1) : Nat × Nat).2 - (0, 1).1 < ([9, 9] : List Nat).length ∧
      (∀ p ∈ [((0 : Nat), (2 : Nat))], p.2 - p.1 = ([9, 9] : List Nat).length)) ∧
    patch [7, 7, 7] ([(0, 2)] ++ (0, 1) :: []) [9, 9] false =
      .error (.oversize 1 2 1) :=
  ⟨⟨by decide, by decide⟩,
    (claimC4 [7, 7, 7] [9, 9] false [(0, 2)] [] (0, 1) (by decide)).2 (by decide)⟩

/-- A blob in which a BEGIN marker occurrence overlaps the tail of an END
marker: `-----BEGIN CERTIFICATE----------END CERTIFICATE-----BEGIN
CERTIFICATE-----` (the BEGIN at offset 47 shares its leading dashes with the
END at offset 27). -/
def cexBlob : List Nat := CERT_BEGIN ++ CERT_END ++ strBytes "BEGIN CERTIFICATE-----"

/-- C5 counterexample: `cexBlob` has a BEGIN marker occurrence (at offset 47)
with no END marker occurrence at or after it, yet `scan` returns normally with
a single bundle — refuting the claimed "if and only if". -/
theorem claimC5_cex :
    findAllBundles cexBlob = .ok [(0, 52)] ∧
    occursAt CERT_BEGIN cexBlob 47 ∧
    (∀ k, 47 ≤ k → ¬ occursAt CERT_END cexBlob k) := by
  refine ⟨?_, by decide, ?_⟩
  · have hfB : bytesFind CERT_BEGIN cexBlob 0 = some 0 := by decide
    have hfE : bytesFind CERT_END cexBlob 0 = some 27 := by decide
    have hskip : skipWS cexBlob (27 + CERT_END.length) = 52 := by decide
    have hsw : startsWithAt CERT_BEGIN cexBlob (skipWS cexBlob (27 + CERT_END.length))
        = false := by decide
    have hL : scanLoop cexBlob 0 0 = .ok (0, 52) := by
      rw [scanLoop_step_done hfE hsw, hskip]
    have hss : scanSingle cexBlob 0 = .ok (some (0, 52)) := by
      unfold scanSingle
      rw [hfB]
      show (scanLoop cexBlob 0 0).map some = _
      rw [hL]
      rfl
    have hss2 : scanSingle cexBlob 52 = .ok none := by
      unfold scanSingle
      rw [show bytesFind CERT_BEGIN cexBlob 52 = none from by decide]
    unfold findAllBundles
    rw [findAllLoop_step_cons hss, findAllLoop_step_none hss2]
    rfl
  · intro k hk hocc
    have hfit := (occursAt_fit CERT_END_ne hocc).1
    have hlen : cexBlob.length = 74 := by decide
    have hEl : CERT_END.length = 25 := CERT_END_len
    have hk49 : k ≤ 49 := by omega
    interval_cases k
    all_goals exact absurd hocc (by decide)

/-- C5 (amended): if `scan` fails then some BEGIN marker occurrence has no END
marker occurrence at or after it; conversely, if the first (lowest-offset)
BEGIN occurrence has no END occurrence at or after it then `scan` fails with
the malformed-input error (a BEGIN occurrence overlapping bytes already
consumed by an earlier bundle may be skipped, so the converse does not hold
for an arbitrary occurrence); and for every blob with zero BEGIN marker
occurrences `scan` returns the empty list. -/
theorem claimC5 (d : List Nat) :
    (∀ err, findAllBundles d = .error err →
      ∃ j, occursAt CERT_BEGIN d j ∧ ∀ k, j ≤ k → ¬ occursAt CERT_END d k) ∧
    (∀ j, occursAt CERT_BEGIN d j → (∀ k, k < j → ¬ occursAt CERT_BEGIN d k) →
      (∀ k, k < d.length → j ≤ k → ¬ occursAt CERT_END d k) →
      findAllBundles d = .error .malformed) ∧
    ((∀ j, j < d.length → ¬ occursAt CERT_BEGIN d j) → findAllBundles d = .ok []) := by
  refine ⟨?_, ?_, ?_⟩
  · intro err herr
    exact findAllLoop_error (d.length + 1) 0 (by omega) herr
  · intro j hj hfirst hnoend
    have hnoend2 : ∀ k, j ≤ k → ¬ occursAt CERT_END d k := by
      intro k hk hocc
      have := (occursAt_fit CERT_END_ne hocc).2
      exact hnoend k this hk hocc
    have hfB : bytesFind CERT_BEGIN d 0 = some j :=
      bytesFind_eq_some CERT_BEGIN_ne hj (Nat.zero_le j) (fun k _ hk => hfirst k hk)
    have hfE : bytesFind CERT_END d j = none :=
      bytesFind_eq_none CERT_END_ne (fun k hk => hnoend2 k hk)
    have hL : scanLoop d j j = .error .malformed := scanLoop_step_none hfE
    have hss : scanSingle d 0 = .error .malformed := by
      unfold scanSingle
      rw [hfB]
      show (scanLoop d j j).map some = _
      rw [hL]
      rfl
    unfold findAllBundles
    exact findAllLoop_step_err hss
  · intro hnone
    have hfB : bytesFind CERT_BEGIN d 0 = none :=
      bytesFind_eq_none CERT_BEGIN_ne
        (fun k _ hocc => hnone k (occursAt_fit CERT_BEGIN_ne hocc).2 hocc)
    have hss : scanSingle d 0 = .ok none := by
      unfold scanSingle
      rw [hfB]
    unfold findAllBundles
    exact findAllLoop_step_none hss

theorem claimC5_witness :
    occursAt CERT_BEGIN CERT_BEGIN 0 ∧
    findAllBundles CERT_BEGIN = .error .malformed ∧
    findAllBundles (strBytes "no markers here") = .ok [] :=
  ⟨by decide,
    (claimC5 CERT_BEGIN).2.1 0 (by decide) (fun k hk => absurd hk (Nat.not_lt_zero k))
      (by decide),
    (claimC5 (strBytes "no markers here")).2.2 (by decide)⟩

/-- C6: on every blob where the scan succeeds, consecutive bundles satisfy
`bundles[i].end ≤ bundles[i+1].start` and every bundle satisfies
`start < end`. -/
theorem claimC6 (blob : List Nat) (bundles : List (Nat × Nat))
    (h : findAllBundles blob = .ok bundles) :
    List.Chain' (fun a b : Nat × Nat => a.2 ≤ b.1) bundles ∧
    ∀ t ∈ bundles, t.1 < t.2 := by
  obtain ⟨hinv, hchain⟩ := findAllLoop_inv (d := blob) (blob.length + 1) 0 (by omega) h
  exact ⟨hchain, fun t ht => (hinv t ht).2.1⟩

theorem claimC6_witness :
    findAllBundles blobW = .ok [(0, 57), (63, 120)] ∧
    List.Chain' (fun a b : Nat × Nat => a.2 ≤ b.1) [((0 : Nat), (57 : Nat)), (63, 120)] ∧
    ∀ t ∈ [((0 : Nat), (57 : Nat)), (63, 120)], t.1 < t.2 :=
  ⟨scan_blobW, (claimC6 blobW [(0, 57), (63, 120)] scan_blobW).1,
    (claimC6 blobW [(0, 57), (63, 120)] scan_blobW).2⟩

/-- C7: the selector normalizes a negative index `i` to `count + i`, succeeds
exactly when every normalized index lies in `[0, count)`, and otherwise fails
with an out-of-range error naming the first offending requested index and the
bundle count; `[-1]` on three bundles resolves to index 2, and `[5]` on three
bundles fails with the out-of-range error naming 5 and 3. -/
theorem claimC7 (bs : List (Nat × Nat)) (req : List Int) :
    ((∃ ts, selectBundles bs req = .ok ts) ↔ ∀ i ∈ req, inRangeI bs.length i) ∧
    (∀ pre i rest, req = pre ++ i :: rest → (∀ j ∈ pre, inRangeI bs.length j) →
      ¬ inRangeI bs.length i →
      selectBundles bs req = .error (.indexOutOfRange i bs.length)) ∧
    (∀ b0 b1 b2 : Nat × Nat,
      selectBundles [b0, b1, b2] [-1] = .ok [b2] ∧
      selectBundles [b0, b1, b2] [5] = .error (.indexOutOfRange 5 3) ∧
      normI 3 (-1) = 2) := by
  refine ⟨selectGo_ok_iff req [], ?_, ?_⟩
  · intro pre i rest hreq hpre hi
    rw [hreq]
    exact selectGo_first_err pre i rest [] hpre hi
  · intro b0 b1 b2
    exact ⟨rfl, rfl, rfl⟩

theorem claimC7_witness :
    selectBundles [((10 : Nat), (20 : Nat)), (30, 40), (50, 60)] [-1] = .ok [(50, 60)] ∧
    selectBundles [((10 : Nat), (20 : Nat)), (30, 40), (50, 60)] [5] =
      .error (.indexOutOfRange 5 3) ∧
    ¬ inRangeI 3 5 :=
  ⟨((claimC7 [(10, 20), (30, 40), (50, 60)] [-1]).2.2 (10, 20) (30, 40) (50, 60)).1,
    (claimC7 [(10, 20), (30, 40), (50, 60)] [5]).2.1 [] 5 [] rfl (by simp) (by decide),
    by decide⟩

/-- C8: every successful selection equals the first-occurrence de-duplication
of the normalized requested indices, in first-requested order, mapped through
the bundle list; the de-duplicated index list is duplicate-free; requesting
`[2, 0]` yields bundle 2 before bundle 0, and `[0, 2, 0]` yields exactly the
targets for indices 0 then 2. -/
theorem claimC8 (bs : List (Nat × Nat)) (req : List Int) :
    (∀ ts, selectBundles bs req = .ok ts →
      ts = (dedupFO (req.map (fun i => (normI bs.length i).toNat))).map
        (fun k => bs.getD k (0, 0))) ∧
    (∀ l : List Nat, (dedupFO l).Nodup) ∧
    (∀ b0 b1 b2 : Nat × Nat,
      selectBundles [b0, b1, b2] [2, 0] = .ok [b2, b0] ∧
      selectBundles [b0, b1, b2] [0, 2, 0] = .ok [b0, b2]) := by
  refine ⟨?_, dedupFO_nodup, fun b0 b1 b2 => ⟨rfl, rfl⟩⟩
  intro ts hok
  have hall : ∀ i ∈ req, inRangeI bs.length i := (selectGo_ok_iff req []).mp ⟨ts, hok⟩
  have hok2 : selectGo bs req [] = .ok ts := hok
  have h := selectGo_eq_dedup req [] hall
  rw [hok2] at h
  have h2 := Except.ok.inj h
  rw [filter_memb_nil] at h2
  exact h2

theorem claimC8_witness :
    selectBundles [((10 : Nat), (20 : Nat)), (30, 40), (50, 60)] [2, 0] =
      .ok [(50, 60), (10, 20)] ∧
    selectBundles [((10 : Nat), (20 : Nat)), (30, 40), (50, 60)] [0, 2, 0] =
      .ok [(10, 20), (50, 60)] ∧
    [((50 : Nat), (60 : Nat)), (10, 20)] =
      (dedupFO ([2, 0].map (fun i => (normI 3 i).toNat))).map
        (fun k => [((10 : Nat), (20 : Nat)), (30, 40), (50, 60)].getD k (0, 0)) :=
  ⟨((claimC8 [(10, 20), (30, 40), (50, 60)] [2, 0]).2.2 (10, 20) (30, 40) (50, 60)).1,
    ((claimC8 [(10, 20), (30, 40), (50, 60)] [0, 2, 0]).2.2 (10, 20) (30, 40) (50, 60)).2,
    (claimC8 [(10, 20), (30, 40), (50, 60)] [2, 0]).1 [(50, 60), (10, 20)] rfl⟩

/-- C9 counterexample: patching a 100-byte range with an 80-byte replacement
in strict mode fails with `undersize 0`, an error that names only the
target's position and neither length — while the oversize error does name its
lengths — refuting the claim that the undersize error names the same details
as the oversize error. -/
theorem claimC9_cex :
    patch (List.replicate 100 7) [(0, 100)] (List.replicate 80 5) true =
      .error (.undersize 0) ∧
    Err.mentions (.undersize 0) 80 = false ∧
    Err.mentions (.undersize 0) 100 = false ∧
    Err.mentions (.oversize 0 120 100) 120 = true ∧
    Err.mentions (.oversize 0 120 100) 100 = true := by
  decide

/-- C9 (amended): in strict mode a plan containing an undersize target never
produces an output blob and no padding occurs; whenever every target before it
in the plan is an exact fit, the failure is the undersize error naming the
target's position in the plan (the code's undersize error does not carry the
lengths). -/
theorem claimC9 (blob rep : List Nat) (pre rest : List (Nat × Nat)) (t : Nat × Nat)
    (hunder : rep.length < t.2 - t.1) :
    (∀ out, patch blob (pre ++ t :: rest) rep true ≠ .ok out) ∧
    ((∀ p ∈ pre, p.2 - p.1 = rep.length) →
      patch blob (pre ++ t :: rest) rep true = .error (.undersize pre.length)) := by
  constructor
  · intro out
    exact patchGo_undersize_never_ok (pre ++ t :: rest) blob 0 t (by simp) hunder out
  · intro hpre
    have h := patchGo_undersize_eq pre blob 0 t rest hpre hunder
    simpa using h

theorem claimC9_witness :
    (([9, 9] : List Nat).length < ((0, 3) : Nat × Nat).2 - (0, 3).1 ∧
      (∀ p ∈ [((0 : Nat), (2 : Nat))], p.2 - p.1 = ([9, 9] : List Nat).length)) ∧
    patch [7, 7, 7] ([(0, 2)] ++ (0, 3) :: []) [9, 9] true = .error (.undersize 1) :=
  ⟨⟨by decide, by decide⟩,
    (claimC9 [7, 7, 7] [9, 9] [(0, 2)] [] (0, 3) (by decide)).2 (by decide)⟩

/-- C10: every bundle returned by a single scan step starts at or after the
current cursor, is a nonempty range, and ends inside the blob — the facts that
make the scan cursor strictly increase and stay bounded by the blob length, so
the scan terminates (and is indeed a total function of this embedding). -/
theorem claimC10 (d : List Nat) (pos s e : Nat)
    (h : scanSingle d pos = .ok (some (s, e))) :
    pos ≤ s ∧ s < e ∧ e ≤ d.length :=
  scanSingle_ok_bounds h

theorem claimC10_witness :
    scanSingle blobW 0 = .ok (some (0, 57)) ∧
    (0 ≤ 0 ∧ 0 < 57 ∧ 57 ≤ blobW.length) :=
  ⟨scanSingle_blobW, claimC10 blobW 0 0 57 scanSingle_blobW⟩

end PCB
